import Mathlib

/-!
Verification development for the AutoCircuit_Chatbot repository.

The Python sources (`utils.py`, `app.py`) are shallowly embedded over
`Str := List Char`.  Pure string transformations become Lean functions;
the pandas data frame of documents becomes a `List Doc`; the Streamlit
session dictionary becomes an explicit `AppState` record with the four
core operations as state-transition functions; Python exceptions become
an explicit ok/err result carrying the state as mutated before the raise.

External collaborators are parameters of the model:
  * the three fuzzywuzzy similarity measures (an external library) are an
    abstract record `Fuzz` of score functions;
  * the real-valued natural logarithm used by the IDF weight is an
    abstract parameter `lg` (no claim settled here depends on its values);
  * the OpenAI call inside `parse_intent_llm` is an oracle: its observable
    result is `Option Intent` (`none` models every failure path, which the
    Python code collapses to `None` via its catch-all `except`).

Floating point arithmetic is idealised as exact rational arithmetic and
`pandas.sort_values` is modelled as a stable descending insertion sort
(pandas' default quicksort guarantees only sortedness; where a claim
depends on tie order this modelling choice is flagged in its resolution).
-/

set_option maxRecDepth 4000

/-- Strings are modelled as lists of characters. -/
abbrev Str := List Char

/-- Shorthand turning a Lean string literal into the model's string type. -/
def str (x : String) : Str := x.data

/-- Characters treated as whitespace by Python's `str.strip`, `str.split`
and the regex class `\s`, restricted to the whitespace characters that can
occur in this program's data (ASCII whitespace and the ideographic space). -/
def isWS (c : Char) : Bool :=
  c = ' ' || c = '\t' || c = '\n' || c = '\r' || c = '\x0b' || c = '\x0c' ||
  c = '　'

/-- Latin letters and digits: the regex class `[A-Za-z0-9]` of
`normalize_query`'s script-separating substitutions (utils.py lines 102-103). -/
def isLatinDigit (c : Char) : Bool :=
  ('A' ≤ c && c ≤ 'Z') || ('a' ≤ c && c ≤ 'z') || ('0' ≤ c && c ≤ '9')

/-- CJK ideographs: the regex class `[一-鿿]` (utils.py lines 102-103). -/
def isCJK (c : Char) : Bool :=
  0x4e00 ≤ c.toNat && c.toNat ≤ 0x9fff

/-- Word characters for Python's regex `\b` boundary (`\w`), restricted to
the alphabets occurring in this program: ASCII alphanumerics, underscore and
CJK ideographs (Python's Unicode `\w` also covers them). -/
def isWordCh (c : Char) : Bool :=
  isLatinDigit c || c = '_' || isCJK c

/-- ASCII lower-casing, as performed character-wise by Python's `str.lower`
on the ASCII/CJK alphabet of this program (CJK characters are uncased). -/
def lowerS (q : Str) : Str := q.map Char.toLower

/-- ASCII upper-casing (`str.upper`) on the program's alphabet. -/
def upperS (q : Str) : Str := q.map Char.toUpper

/-- Does `hay` start with `pat`?  (Python string equality on a prefix.) -/
def startsWith : Str → Str → Bool
  | _, [] => true
  | [], _ :: _ => false
  | h :: t, p :: ps => h = p && startsWith t ps

/-- Python's substring test `pat in hay`. -/
def containsSub : Str → Str → Bool
  | hay, pat =>
    startsWith hay pat ||
      (match hay with
       | [] => false
       | _ :: t => containsSub t pat)

/-- `l.dropWhile isWS` from both ends: Python's `str.strip()`. -/
def stripWS (q : Str) : Str :=
  ((q.dropWhile isWS).reverse.dropWhile isWS).reverse

/-- Single pass replacing every maximal run of characters satisfying `s` by
one space, the `prev`-flag marking that we are inside such a run.  This is
`re.sub(r"[class]+", " ", ·)` for the character class `s`. -/
def runAux (s : Char → Bool) : Bool → Str → Str
  | _, [] => []
  | inRun, c :: r =>
    if s c then
      if inRun then runAux s true r else ' ' :: runAux s true r
    else c :: runAux s false r

/-- `re.sub(r"[class]+", " ", q)` for the character class `s`. -/
def runSub (s : Char → Bool) (q : Str) : Str := runAux s false q

/-- The symbol characters stripped by `normalize_query`
(utils.py line 105): the regex class `[@#￥$%^&*()（）\[\]{}<>【】|\\/]`. -/
def isPunctSym (c : Char) : Bool :=
  c = '@' || c = '#' || c = '￥' || c = '$' || c = '%' || c = '^' ||
  c = '&' || c = '*' || c = '(' || c = ')' || c = '（' || c = '）' ||
  c = '[' || c = ']' || c = '\x7b' || c = '\x7d' || c = '<' || c = '>' ||
  c = '【' || c = '】' || c = '|' || c = '\\' || c = '/'

/-- One left-to-right pass of `re.sub(r"\becu\b", "ECU", q, flags=IGNORECASE)`
(utils.py line 100).  The flag records whether the previous character was a
word character (so that `\b` holds exactly when the flag is false); after a
replacement, scanning resumes after the match with the flag set. -/
def ecuRepl : Bool → Str → Str
  | prevW, c1 :: c2 :: c3 :: rest =>
    if !prevW && (c1 = 'e' || c1 = 'E') && (c2 = 'c' || c2 = 'C') &&
       (c3 = 'u' || c3 = 'U') &&
       !(match rest with | [] => false | d :: _ => isWordCh d) then
      'E' :: 'C' :: 'U' :: ecuRepl true rest
    else c1 :: ecuRepl (isWordCh c1) (c2 :: c3 :: rest)
  | _, [c1, c2] => c1 :: ecuRepl (isWordCh c1) [c2]
  | _, [c1] => [c1]
  | _, [] => []

/-- `re.sub(r"\becu\b", "ECU", q, flags=re.IGNORECASE)` (utils.py line 100). -/
def ecuSub (q : Str) : Str := ecuRepl false q

/-- Insert a space between every adjacent pair of characters satisfying
`p2`. -/
def sepBy (p2 : Char → Char → Bool) : Str → Str
  | a :: b :: r =>
    if p2 a b then a :: ' ' :: sepBy p2 (b :: r)
    else a :: sepBy p2 (b :: r)
  | l => l

/-- A Latin/digit character immediately followed by a CJK character. -/
def latinCJK (a b : Char) : Bool := isLatinDigit a && isCJK b

/-- A CJK character immediately followed by a Latin/digit character. -/
def cjkLatin (a b : Char) : Bool := isCJK a && isLatinDigit b

/-- `re.sub(r"([A-Za-z0-9]+)([一-鿿])", r"\1 \2", q)` (utils.py
line 102): a space is inserted at every boundary where a Latin/digit
character is immediately followed by a CJK character.  The regex consumes
each maximal alphanumeric run and the following single CJK character;
non-overlapping left-to-right replacement is therefore exactly per-boundary
space insertion. -/
def sepANCJK : Str → Str := sepBy latinCJK

/-- `re.sub(r"([一-鿿])([A-Za-z0-9]+)", r"\1 \2", q)` (utils.py
line 103), the mirror-image boundary insertion. -/
def sepCJKAN : Str → Str := sepBy cjkLatin

/-- Whitespace-splitting with empty pieces dropped: Python's `str.split()`.
The accumulator holds the current word reversed. -/
def splitWSAux (cur : Str) : Str → List Str
  | [] => if cur.isEmpty then [] else [cur.reverse]
  | c :: r =>
    if isWS c then
      if cur.isEmpty then splitWSAux [] r else cur.reverse :: splitWSAux [] r
    else splitWSAux (c :: cur) r

/-- Python's `q.split()`. -/
def splitWS (q : Str) : List Str := splitWSAux [] q

/-- Python's `" ".join(ws)`. -/
def joinWords (ws : List Str) : Str := List.intercalate [' '] ws

/-- The `SYNONYMS` table of utils.py lines 26-33: canonical term paired with
its variant spellings, in source order. -/
def SYNONYMS : List (Str × List Str) :=
  [ (str "保险丝", [str "熔断器", str "fuse"]),
    (str "接线盒", [str "接线箱", str "junction", str "j/b", str "jb"]),
    (str "针脚", [str "pin", str "针脚定义", str "端子", str "插头", str "接头"]),
    (str "ecu", [str "ECU", str "电脑板", str "控制器", str "电控", str "发动机电脑"]),
    (str "仪表", [str "组合仪表", str "仪表盘", str "meter"]),
    (str "住友", [str "sumitomo", str "SUMITOMO", str "住友挖机", str "住友挖掘机"]) ]

/-- The hit test of `_expand_synonyms` (utils.py line 91): the group fires
when the lower-cased query contains the canonical term or any variant as a
substring (each lower-cased). -/
def synHit (ql : Str) (g : Str × List Str) : Bool :=
  containsSub ql (lowerS g.1) || g.2.any (fun v => containsSub ql (lowerS v))

/-- The words appended by `_expand_synonyms` for query `q`: for every
group that fires, the canonical term followed by all variants, in table
order (utils.py lines 89-94). -/
def synExtra (q : Str) : List Str :=
  (SYNONYMS.filter (synHit (lowerS q))).flatMap (fun g => g.1 :: g.2)

/-- `_expand_synonyms` (utils.py lines 87-95):
`(q + " " + " ".join(extra)).strip()`. -/
def expand_synonyms (q : Str) : Str :=
  stripWS (q ++ ' ' :: joinWords (synExtra q))

/-- Does any synonym group fire on `x`?  (Used to state claim C1.) -/
def hasSynHit (x : Str) : Bool := SYNONYMS.any (synHit (lowerS x))

/-- The cleaning pipeline of `normalize_query` before synonym expansion
(utils.py lines 99-106): strip, case-normalise `ecu`, separate mixed
scripts, replace symbol runs by spaces, collapse whitespace, strip. -/
def cleanStage (q : Str) : Str :=
  stripWS (runSub isWS (runSub isPunctSym (sepCJKAN (sepANCJK (ecuSub (stripWS q))))))

/-- `normalize_query` (utils.py lines 98-109). -/
def normalize_query (q : Str) : Str :=
  expand_synonyms (cleanStage q)

/-!  The retrieval engine (utils.py lines 165-263). -/

/-- The three fuzzywuzzy similarity measures used by `score_row`
(utils.py lines 167-175).  fuzzywuzzy is an external library (its exact
values additionally depend on an optional C extension), so the measures are
abstract score functions of the model; every theorem below quantifies over
them.  In reality each returns an integer on the 0-100 scale. -/
structure Fuzz where
  tokenSetR : Str → Str → ℚ
  partialR : Str → Str → ℚ
  wR : Str → Str → ℚ

/-- Python's binary `max` on rationals (written explicitly so that it
computes by the decidable order on `ℚ`). -/
def qmax (a b : ℚ) : ℚ := if a ≤ b then b else a

/-- `score_row` (utils.py lines 165-176): for title and path independently,
the maximum of the three similarity measures, combined 70/30. -/
def score_row (fz : Fuzz) (query title path : Str) : ℚ :=
  let s_title := qmax (qmax (fz.tokenSetR query title) (fz.partialR query title))
    (fz.wR query title)
  let s_path := qmax (qmax (fz.tokenSetR query path) (fz.partialR query path))
    (fz.wR query path)
  7/10 * s_title + 3/10 * s_path

/-- A corpus row as produced by `load_data` (utils.py lines 50-65): the three
required columns. -/
structure Doc where
  id : Str
  title : Str
  path : Str
deriving DecidableEq

/-- The derived `_search_blob` column: `title + " " + path`
(utils.py line 64). -/
def blobOf (title path : Str) : Str := title ++ ' ' :: path

/-- A scored result row, as returned by `search_topk`
(columns ID, title, path, score; utils.py line 263). -/
structure SDoc where
  id : Str
  title : Str
  path : Str
  score : ℚ
deriving DecidableEq

/-- Keep the first occurrence of every string, in order: the key set of a
Python dict built by repeated assignment (utils.py lines 197-200). -/
def firstDedup : List Str → List Str
  | [] => []
  | x :: r => x :: (firstDedup r).filter (fun y => y ≠ x)

/-- The query tokens of `search_topk` (utils.py lines 191-192, 197): the
whitespace-split words of the normalised query of length > 1, lower-cased,
deduplicated in first-occurrence order (the keys of `token_idf`). -/
def qTokens (query_n : Str) : List Str :=
  firstDedup (((splitWS query_n).filter (fun t => 1 < t.length)).map lowerS)

/-- Document frequency of token `t` (utils.py line 199): rows whose
lower-cased blob contains `t` as a substring. -/
def dfCount (df : List Doc) (t : Str) : ℕ :=
  (df.filter (fun d => containsSub (lowerS (blobOf d.title d.path)) t)).length

/-- The `token_idf` table (utils.py lines 197-200):
`idf(t) = ln((N+1)/(df(t)+1)) + 1`, with the natural logarithm abstracted
as the parameter `lg`. -/
def tokenIdf (lg : ℚ → ℚ) (df : List Doc) (query_n : Str) : List (Str × ℚ) :=
  (qTokens query_n).map (fun t =>
    (t, lg (((df.length : ℚ) + 1) / ((dfCount df t : ℚ) + 1)) + 1))

/-- Does the row's lower-cased blob contain some token of `toks`?
(the per-row disjunction of the boolean mask, utils.py lines 202-205.) -/
def tokenMatch (toks : List Str) (d : Doc) : Bool :=
  toks.any (fun t => containsSub (lowerS (blobOf d.title d.path)) t)

/-- The coarse candidate set (utils.py line 207): the token-matching rows if
the mask was built (some token exists) and matches at least one row, the
whole corpus otherwise. -/
def searchCandidates (df : List Doc) (toks : List Str) : List Doc :=
  if toks ≠ [] ∧ df.any (tokenMatch toks) then df.filter (tokenMatch toks)
  else df

/-- `weighted_hit_score` (utils.py lines 209-215): the sum of the IDF
weights of the tokens contained in the row's lower-cased blob. -/
def whitScore (idf : List (Str × ℚ)) (d : Doc) : ℚ :=
  (idf.map (fun p =>
    if containsSub (lowerS (blobOf d.title d.path)) p.1 then p.2 else 0)).sum

/-- Stable insertion of `x` into a descending-by-key list: `x` goes in
front of the first element whose key is not larger. -/
def insDescBy {α : Type} (key : α → ℚ) (x : α) : List α → List α
  | [] => [x]
  | y :: ys => if key y ≤ key x then x :: y :: ys else y :: insDescBy key x ys

/-- Stable descending sort by `key`.  This models
`DataFrame.sort_values(..., ascending=False)`; pandas' default quicksort
guarantees only sortedness, and the model fixes the tie order to be stable
(equal keys keep their input order). -/
def sortDescBy {α : Type} (key : α → ℚ) : List α → List α
  | [] => []
  | x :: xs => insDescBy key x (sortDescBy key xs)

/-- `hit_cnt` (utils.py line 225): the number of distinct tokens contained
in the row's lower-cased blob. -/
def hitCnt (idf : List (Str × ℚ)) (d : Doc) : ℕ :=
  (idf.filter (fun p => containsSub (lowerS (blobOf d.title d.path)) p.1)).length

/-- The hard-coded co-occurrence bonus (utils.py lines 230-231): +80 when
the blob mentions 住友/sumitomo together with 4hk1. -/
def coocBonus (d : Doc) : ℚ :=
  let bl := lowerS (blobOf d.title d.path)
  if (containsSub bl (str "住友") || containsSub bl (str "sumitomo")) &&
     containsSub bl (str "4hk1") then 80 else 0

/-- The final per-candidate score (utils.py lines 220-233):
`base + whit*22 + hit_cnt*12 + co-occurrence bonus`. -/
def fullScore (fz : Fuzz) (idf : List (Str × ℚ)) (query_n : Str) (d : Doc) : ℚ :=
  score_row fz query_n d.title d.path + whitScore idf d * 22 +
    (hitCnt idf d : ℚ) * 12 + coocBonus d

/-- The intent hint consumed by `search_topk`'s LLM bonus
(utils.py lines 244-252): the brand/model/part term lists. -/
structure Intent where
  brand : List Str
  model : List Str
  part : List Str
deriving DecidableEq

/-- `intent_bonus` (utils.py lines 241-253): +30 per listed brand, +40 per
listed model, +20 per listed part contained (lower-cased) in
`title + " " + path` lower-cased. -/
def intentBonus (it : Intent) (sd : SDoc) : ℚ :=
  let blob := lowerS (blobOf sd.title sd.path)
  ((it.brand.filter (fun b => containsSub blob (lowerS b))).length : ℚ) * 30 +
  ((it.model.filter (fun m => containsSub blob (lowerS m))).length : ℚ) * 40 +
  ((it.part.filter (fun p => containsSub blob (lowerS p))).length : ℚ) * 20

/-- The LLM re-weighting step (utils.py lines 238-256).  `oracle` is the
observable result of `parse_intent_llm(query)`: `none` models every failure
path (missing credential, request error, malformed JSON, non-dict reply),
which the Python function collapses to `None`; a falsy (empty) dict behaves
identically and is likewise modelled as `none`. -/
def rankedWithIntent (oracle : Option Intent) (useLLM : Bool)
    (ranked : List SDoc) : List SDoc :=
  if useLLM then
    match oracle with
    | some it =>
      sortDescBy (fun sd => sd.score)
        (ranked.map (fun sd =>
          { id := sd.id, title := sd.title, path := sd.path,
            score := sd.score + intentBonus it sd }))
    | none => ranked
  else ranked

/-- The `min_score` filter (utils.py lines 258-261): applied only when
positive, and discarded rather than returning an empty result. -/
def minScoreFilter (min_score : ℚ) (ranked : List SDoc) : List SDoc :=
  if 0 < min_score then
    let f := ranked.filter (fun sd => min_score ≤ sd.score)
    if f ≠ [] then f else ranked
  else ranked

/-- `search_topk` (utils.py lines 179-263).  `lg` abstracts `math.log`,
`fz` the fuzzywuzzy measures, `oracle` the LLM call-out result. -/
def search_topk (lg : ℚ → ℚ) (fz : Fuzz) (oracle : Option Intent)
    (df : List Doc) (query : Str) (k candidate_pool : ℕ) (min_score : ℚ)
    (use_llm_intent : Bool) : List SDoc :=
  let query_n := normalize_query query
  if query_n = [] then []
  else
    let idf := tokenIdf lg df query_n
    let candidates := searchCandidates df (qTokens query_n)
    let pooled := (sortDescBy (whitScore idf) candidates).take candidate_pool
    let scored := pooled.map (fun d =>
      { id := d.id, title := d.title, path := d.path,
        score := fullScore fz idf query_n d : SDoc })
    let ranked := sortDescBy (fun sd => sd.score) scored
    (minScoreFilter min_score (rankedWithIntent oracle use_llm_intent ranked)).take k

/-!  The narrowing state machine and filter applier (app.py).

app.py imports `llm_parse_query`, `detect_options`, `get_expanded_keywords`,
`check_text_matches_any`, `ALL_SERIES_KEYWORDS` and `ALL_TYPE_KEYWORDS` from
the repository's `utils` module, but the `utils.py` under src/ does not
define them (the two files are from different snapshots of the repository).
Those missing definitions are modelled from the spec below, each marked
`Modelled from the spec:`.  The keyword lists' contents are unspecified, so
they are parameters of the environment. -/

/-- Modelled from the spec: `get_expanded_keywords` is imported by app.py
from utils but absent from src/utils.py.  Spec §4.1: `expand(term)` returns
`{term} ∪ variants-of(term) ∪ canonical-if-term-is-a-variant`,
case-insensitive, always including the input term itself; unknown terms
expand to the singleton set of themselves.  List order: the term first,
then each matching group in table order. -/
def get_expanded_keywords (t : Str) : List Str :=
  t :: (SYNONYMS.filter (fun g =>
      lowerS g.1 = lowerS t || g.2.any (fun v => lowerS v = lowerS t))).flatMap
    (fun g => g.1 :: g.2)

/-- Modelled from the spec: `check_text_matches_any` is imported by app.py
from utils but absent from src/utils.py.  Spec §4.5/§9: the single matching
primitive `blob_contains_any(blob, terms)` — does the text contain at least
one of the terms as a substring, case-insensitively. -/
def check_text_matches_any (text : Str) (kws : List Str) : Bool :=
  kws.any (fun kw => containsSub (lowerS text) (lowerS kw))

/-- Search blob of a result row.  src/utils.py's `search_topk` projects its
result to the ID/title/path/score columns, while app.py reads the row's
`_search_blob`; per load_data (utils.py line 64) and spec §3 the blob is
derived as `title + " " + path`, which is how it is reconstructed here. -/
def blobS (sd : SDoc) : Str := blobOf sd.title sd.path

/-- `apply_filters_smart` (app.py lines 83-88): successively keep the rows
whose blob matches at least one member of each filter term's synonym
expansion. -/
def apply_filters_smart (base : List SDoc) (filters : List Str) : List SDoc :=
  filters.foldl
    (fun res f =>
      res.filter (fun sd => check_text_matches_any (blobS sd) (get_expanded_keywords f)))
    base

/-- Modelled from the spec: `detect_options` is imported by app.py from
utils but absent from src/utils.py.  Spec §4.6: scan the current result set
for recognizable keywords — a keyword is detected when it appears as a
substring, case-insensitive, within the first 100 documents' blobs. -/
def detect_options (docs : List SDoc) (kws : List Str) : List Str :=
  kws.filter (fun kw =>
    (docs.take 100).any (fun sd => containsSub (lowerS (blobS sd)) (lowerS kw)))

/-- A JSON-like value of the intent dict returned by the Intent Extractor:
a string, a list of strings, or null.  (Spec §6: the boundary returns the
list shape or a simpler single-string-value shape.) -/
inductive JVal where
  | jstr : Str → JVal
  | jlist : List Str → JVal
  | jnull : JVal
deriving DecidableEq

/-- The intent dict as consumed by `start_search` (app.py lines 101-105):
the values found under the keys it reads (`none` = key absent). -/
structure Intent4 where
  brand : Option JVal
  series : Option JVal
  model : Option JVal
  part : Option JVal
deriving DecidableEq

/-- One iteration of `start_search`'s extraction loop (app.py lines
102-105): `if val and val.lower() != "null": filters.append(val)`.
An absent key or JSON null is falsy and skipped; an empty string or empty
list is falsy and skipped; a non-empty string is appended unless it
lower-cases to "null"; a non-empty list is truthy and `val.lower()` raises
`AttributeError`, modelled as the error outcome. -/
def pyFilterStep (acc : List Str) (val : Option JVal) : Except Unit (List Str) :=
  match val with
  | none => .ok acc
  | some .jnull => .ok acc
  | some (.jstr s) =>
    if s ≠ [] && lowerS s ≠ str "null" then .ok (acc ++ [s]) else .ok acc
  | some (.jlist l) => if l = [] then .ok acc else .error ()

/-- The filter-extraction loop of `start_search` (app.py lines 100-105),
over the keys brand, series, part in that order; a raise aborts the loop. -/
def extract_filters (it : Intent4) : Except Unit (List Str) :=
  match pyFilterStep [] it.brand with
  | .error e => .error e
  | .ok f1 =>
    match pyFilterStep f1 it.series with
    | .error e => .error e
    | .ok f2 => pyFilterStep f2 it.part

/-- Decidable equality on extraction outcomes (for concrete evaluation). -/
instance : DecidableEq (Except Unit (List Str))
  | .error a, .error b => isTrue (by cases a; cases b; rfl)
  | .error _, .ok _ => isFalse (fun h => by cases h)
  | .ok _, .error _ => isFalse (fun h => by cases h)
  | .ok a, .ok b =>
    if h : a = b then isTrue (by rw [h])
    else isFalse (fun he => by cases he; exact h rfl)

/-- The `step` field of the session state (app.py lines 46, 166, 174, 200). -/
inductive Step where
  | INIT
  | SERIES_SELECT
  | TYPE_SELECT
  | IDLE
deriving DecidableEq

/-- The session state (app.py lines 41-49).  `results` starts as `None`.
The chat-message log is presentation (spec §6) and is not tracked, except
for the result cards emitted by `finalize_results`, recorded in
`finalCards` as (title, path, id) triples (app.py lines 193-199).
The `debug` entry is likewise presentation and untracked. -/
structure AppState where
  active_query : Str
  filters : List Str
  results : Option (List SDoc)
  step : Step
  options : List Str
  finalCards : List (List (Str × Str × Str))
deriving DecidableEq

/-- The initial session state (app.py lines 42-49). -/
def initState : AppState :=
  { active_query := [], filters := [], results := none, step := .INIT,
    options := [], finalCards := [] }

/-- Outcome of an operation: normal return, or a propagated Python
exception.  Both carry the session state as mutated up to that point
(an exception aborts the operation but keeps prior mutations). -/
inductive OpResult where
  | ok : AppState → OpResult
  | err : AppState → OpResult
deriving DecidableEq

/-- The session state after an operation, normal or exceptional. -/
def outState : OpResult → AppState
  | .ok st => st
  | .err st => st

/-- The fixed surroundings of a session: the loaded corpus, the sidebar
LLM toggle, the `llm_parse_query` oracle (modelled from the spec: absent
from src/utils.py; it returns an intent dict, `Intent4`), the abstracted
log and fuzzywuzzy measures used by `search_topk`, and the two keyword
lists `ALL_SERIES_KEYWORDS` / `ALL_TYPE_KEYWORDS` (absent from
src/utils.py; contents unspecified, hence arbitrary here). -/
structure Env where
  df : List Doc
  use_llm : Bool
  oracle : Str → Intent4
  lg : ℚ → ℚ
  fz : Fuzz
  seriesKW : List Str
  typeKW : List Str

/-- The result-card payload of `finalize_results` (app.py lines 192-198):
title, path and id of the top 5 rows. -/
def cardOf (l : List SDoc) : List (Str × Str × Str) :=
  (l.take 5).map (fun sd => (sd.title, sd.path, sd.id))

/-- `finalize_results` (app.py lines 189-200): emit a result card with the
top 5 rows and set step to IDLE.  `len(None)` raises before any mutation
when no query has run. -/
def finalize_results (st : AppState) : OpResult :=
  match st.results with
  | none => .err st
  | some fin =>
    .ok { st with step := .IDLE, finalCards := st.finalCards ++ [cardOf fin] }

/-- `check_next_step` (app.py lines 148-178). -/
def check_next_step (env : Env) (st : AppState) : OpResult :=
  match st.results with
  | none => .err st
  | some cur =>
    let count := cur.length
    let has_series := st.filters.any (fun f => check_text_matches_any f env.seriesKW)
    let has_type := st.filters.any (fun f => check_text_matches_any f env.typeKW)
    if count ≤ 5 || (has_series && has_type) then finalize_results st
    else
      let curFiltersStr := upperS st.filters.flatten
      let series_opts := detect_options cur env.seriesKW
      let valid_series := series_opts.filter (fun o => !containsSub curFiltersStr (upperS o))
      if 1 < valid_series.length then
        .ok { st with step := .SERIES_SELECT, options := valid_series }
      else
        let type_opts := detect_options cur env.typeKW
        let valid_types := type_opts.filter (fun o => !containsSub curFiltersStr (upperS o))
        if 1 < valid_types.length then
          .ok { st with step := .TYPE_SELECT, options := valid_types }
        else finalize_results st

/-- The greedy filter cascade of `start_search` (app.py lines 107-123):
try each strategy's filter list in order, skipping empty ones, and stop at
the first that leaves a non-empty subset of the broad results. -/
def cascade (raw : List SDoc) : List (List Str) → (List SDoc × List Str)
  | [] => ([], [])
  | flt :: rest =>
    if flt = [] then cascade raw rest
    else
      let t := apply_filters_smart raw flt
      if t = [] then cascade raw rest else (t, flt)

/-- The three strategies of app.py lines 108-112: all filters, all but the
last (only when more than one), the first alone (only when any); the
placeholder `([], "")` entries are skipped by the cascade. -/
def strategiesOf (filters : List Str) : List (List Str) :=
  [filters,
   if 1 < filters.length then filters.dropLast else [],
   match filters with | f0 :: _ => [f0] | [] => []]

/-- `start_search` (app.py lines 95-146): broad top-150 retrieval, optional
intent-based filter extraction (which raises on a non-empty list value,
before any state mutation), greedy cascade with fallback to the unfiltered
results, state update, then `check_next_step`.  The returned chat message
is presentation and not modelled. -/
def start_search (env : Env) (query : Str) (st : AppState) : OpResult :=
  let raw := search_topk env.lg env.fz none env.df query 150 300 0 false
  match (if env.use_llm then extract_filters (env.oracle query) else .ok []) with
  | .error _ => .err st
  | .ok filters =>
    let fu := cascade raw (strategiesOf filters)
    let final := if fu.1 = [] then raw else fu.1
    let used := if fu.1 = [] then [] else fu.2
    check_next_step env
      { st with active_query := query, filters := used, results := some final }

/-- `on_option_click` (app.py lines 180-187): append the chosen option to
the filters, narrow the current results by it alone, re-evaluate.  The
clicked display label is only echoed into the (untracked) chat log.  When
no query has run, `apply_filters_smart(None, ...)` raises after the filter
list was already mutated. -/
def on_option_click (env : Env) (opt : Str) (st : AppState) : OpResult :=
  let filters' := st.filters ++ [opt]
  match st.results with
  | none => .err { st with filters := filters' }
  | some cur =>
    let new := apply_filters_smart cur [opt]
    check_next_step env { st with filters := filters', results := some new }

/-- States reachable from the initial session state by any sequence of the
four operations (claim C3), counting the state left behind by an operation
that raised. -/
inductive Reach (env : Env) : AppState → Prop where
  | init : Reach env initState
  | search (q : Str) {st : AppState} :
      Reach env st → Reach env (outState (start_search env q st))
  | next {st : AppState} :
      Reach env st → Reach env (outState (check_next_step env st))
  | click (opt : Str) {st : AppState} :
      Reach env st → Reach env (outState (on_option_click env opt st))
  | final {st : AppState} :
      Reach env st → Reach env (outState (finalize_results st))

/-!  Auxiliary notions used to state and prove the theorems. -/

/-- Trailing-whitespace removal (the second half of `str.strip()`). -/
def stripTrail (q : Str) : Str := (q.reverse.dropWhile isWS).reverse

/-- An optional boundary character that is absent or not whitespace. -/
def okEdge : Option Char → Bool
  | none => true
  | some a => !isWS a

/-- `q` carries no leading and no trailing whitespace. -/
def strippedB (q : Str) : Bool := okEdge q.head? && okEdge q.reverse.head?

/-- No adjacent pair of characters of `l` satisfies `p`. -/
def noAdj (p : Char → Char → Bool) : Str → Bool
  | a :: b :: r => !p a b && noAdj p (b :: r)
  | _ => true

/-- Two adjacent whitespace characters. -/
def wsPair (a b : Char) : Bool := isWS a && isWS b

/-- An intent-dict value of the single-value shape: absent, null, or a
string (spec §6's simpler `{brand, series, part}` single-value variant). -/
def isSingleVal : Option JVal → Bool
  | none => true
  | some .jnull => true
  | some (.jstr _) => true
  | some (.jlist _) => false

/-- The whole dict is of the single-value shape. -/
def singleShape (it : Intent4) : Bool :=
  isSingleVal it.brand && isSingleVal it.series && isSingleVal it.model &&
    isSingleVal it.part

/-- An intent-dict value of the documented list shape. -/
def isListVal : Option JVal → Bool
  | some (.jlist _) => true
  | _ => false

/-- The whole dict is of the documented list shape (every field a list of
strings). -/
def listShape (it : Intent4) : Bool :=
  isListVal it.brand && isListVal it.series && isListVal it.model &&
    isListVal it.part

/-- The filter contributed by one single-shape value: the string itself
when non-empty and not lower-casing to "null". -/
def keptFilter : Option JVal → List Str
  | some (.jstr s) => if s ≠ [] && lowerS s ≠ str "null" then [s] else []
  | _ => []

/-- The filters `start_search` extracts from a single-shape dict:
brand, series, part, in that order. -/
def specFilters (it : Intent4) : List Str :=
  keptFilter it.brand ++ keptFilter it.series ++ keptFilter it.part

/-!  Concrete fixtures for the counterexamples and witnesses. -/

/-- A trivial fuzzywuzzy instantiation: every similarity 0. -/
def fzZero : Fuzz :=
  { tokenSetR := fun _ _ => 0, partialR := fun _ _ => 0, wR := fun _ _ => 0 }

/-- An intent dict for the oracle that extracts nothing. -/
def intent4Empty : Intent4 :=
  { brand := none, series := none, model := none, part := none }

/-- A corpus row for the claim-C3 scenario. -/
def c3doc (i t : String) : Doc := { id := str i, title := str t, path := str "p" }

/-- The claim-C3 environment: seven documents split across two series
codes KL and KC, the LLM toggle off, trivial external parameters. -/
def c3env : Env :=
  { df := [c3doc "1" "KL a", c3doc "2" "KL b", c3doc "3" "KC a",
           c3doc "4" "KC b", c3doc "5" "KC c", c3doc "6" "KC d", c3doc "7" "KC e"],
    use_llm := false, oracle := fun _ => intent4Empty,
    lg := fun _ => 0, fz := fzZero,
    seriesKW := [str "KL", str "KC"], typeKW := [] }

/-- The state after searching "中" in the C3 environment: seven results,
more than one undetected series keyword, hence SERIES_SELECT. -/
def c3stSel : AppState := outState (start_search c3env (str "中") initState)

/-- The state after then clicking option "KL": two results remain, the
stop condition fires and `finalize_results` runs — but `options` is never
cleared. -/
def c3stBad : AppState := outState (on_option_click c3env (str "KL") c3stSel)

/-- A list-shape intent dict with one non-empty list (claim C4). -/
def c4listIntent : Intent4 :=
  { brand := some (.jlist [str "东风"]), series := some (.jlist []),
    model := some (.jlist []), part := some (.jlist []) }

/-- A single-shape intent dict (claim C4's witness). -/
def c4singleIntent : Intent4 :=
  { brand := some (.jstr (str "东风")), series := some .jnull,
    model := none, part := some (.jstr (str "null")) }

/-- An environment whose oracle answers with the list-shape dict
(claim C4): `start_search` then raises. -/
def c4env : Env :=
  { df := [], use_llm := true, oracle := fun _ => c4listIntent,
    lg := fun _ => 0, fz := fzZero, seriesKW := [], typeKW := [] }

/-- A minimal environment for the claim-C7 witness. -/
def c7env : Env :=
  { df := [], use_llm := false, oracle := fun _ => intent4Empty,
    lg := fun _ => 0, fz := fzZero, seriesKW := [], typeKW := [] }

/-- A session state holding an empty result set (claim C7's witness). -/
def c7st : AppState :=
  { active_query := str "q", filters := [], results := some [],
    step := .INIT, options := [], finalCards := [] }

/-- A one-row corpus none of whose blobs contains the token "zz"
(claim C5's witness). -/
def c5df : List Doc := [{ id := str "1", title := str "aa", path := str "bb" }]

/-- A plain row without the co-occurrence terms (claim C10). -/
def c10doc1 : Doc := { id := str "1", title := str "aaa", path := str "bbb" }

/-- A row whose blob contains sumitomo and 4hk1, drawing the fixed +80
bonus (claim C10). -/
def c10doc2 : Doc := { id := str "2", title := str "sumitomo 4hk1", path := str "ccc" }

/-- The claim-C10 ranking predicted by the claim as stated: candidates
scored by the fuzzy score alone. -/
def c10pureFuzzy (fz : Fuzz) (df : List Doc) (q : Str) (k pool : ℕ) : List SDoc :=
  (sortDescBy (fun sd => sd.score)
    ((df.take pool).map (fun d =>
      { id := d.id, title := d.title, path := d.path,
        score := score_row fz (normalize_query q) d.title d.path : SDoc }))).take k

/-- The claim-C10 ranking as the code actually computes it when no token
survives: fuzzy score plus the fixed co-occurrence bonus. -/
def c10fuzzyCooc (fz : Fuzz) (df : List Doc) (q : Str) (k pool : ℕ) : List SDoc :=
  (sortDescBy (fun sd => sd.score)
    ((df.take pool).map (fun d =>
      { id := d.id, title := d.title, path := d.path,
        score := score_row fz (normalize_query q) d.title d.path + coocBonus d : SDoc }))).take k

/-- The options/step relation that the session state actually maintains:
a non-empty options list entails a selection step or IDLE
(`finalize_results` never clears `options`, so IDLE states keep the stale
options of the selection step they came from). -/
def stepOK (st : AppState) : Prop :=
  st.options ≠ [] →
    st.step = Step.SERIES_SELECT ∨ st.step = Step.TYPE_SELECT ∨
      st.step = Step.IDLE

/-!  Generic lemmas about the string primitives. -/

/-- Unfolding equation of `containsSub` on a cons cell. -/
theorem containsSub_cons (x : Char) (r p : Str) :
    containsSub (x :: r) p = (startsWith (x :: r) p || containsSub r p) := by
  rfl

/-- Unfolding equation of `containsSub` on the empty string. -/
theorem containsSub_nil (p : Str) : containsSub [] p = startsWith [] p := by
  cases p <;> rfl

/-- A prefix of `a` is also a prefix of `a ++ b`. -/
theorem startsWith_append {a p : Str} (b : Str) (h : startsWith a p = true) :
    startsWith (a ++ b) p = true := by
  induction a generalizing p with
  | nil =>
    cases p with
    | nil => cases b <;> rfl
    | cons q qs => simp [startsWith] at h
  | cons x t ih =>
    cases p with
    | nil => rfl
    | cons q qs =>
      simp only [startsWith, Bool.and_eq_true] at h ⊢
      exact ⟨h.1, ih h.2⟩

/-- Substring containment is preserved by appending on the right. -/
theorem containsSub_append {a p : Str} (b : Str) (h : containsSub a p = true) :
    containsSub (a ++ b) p = true := by
  induction a with
  | nil =>
    rw [containsSub_nil] at h
    cases b with
    | nil => rwa [List.append_nil, containsSub_nil]
    | cons y ys =>
      rw [List.nil_append, containsSub_cons]
      cases p with
      | nil => rfl
      | cons q qs => simp [startsWith] at h
  | cons x t ih =>
    rw [containsSub_cons] at h
    rw [List.cons_append, containsSub_cons]
    rcases Bool.or_eq_true_iff.mp h with h1 | h2
    · exact Bool.or_eq_true_iff.mpr (Or.inl (startsWith_append b h1))
    · exact Bool.or_eq_true_iff.mpr (Or.inr (ih h2))

/-- Dropping a satisfied prefix from an append. -/
theorem dropWhile_append_eq (p : Char → Bool) (x y : Str) :
    (x ++ y).dropWhile p =
      if (x.dropWhile p).isEmpty then y.dropWhile p else x.dropWhile p ++ y := by
  induction x with
  | nil => simp
  | cons c t ih =>
    by_cases hc : p c
    · simpa [List.dropWhile_cons, hc] using ih
    · simp [List.dropWhile_cons, hc]

/-- The dropped-prefix decomposition of `dropWhile`. -/
theorem dropWhile_decomp (p : Char → Bool) (l : Str) :
    ∃ u, u ++ l.dropWhile p = l := by
  induction l with
  | nil => exact ⟨[], rfl⟩
  | cons c t ih =>
    by_cases hc : p c
    · obtain ⟨u, hu⟩ := ih
      exact ⟨c :: u, by simp [List.dropWhile_cons, hc, hu]⟩
    · exact ⟨[], by simp [List.dropWhile_cons, hc]⟩

/-- The head surviving `dropWhile isWS` is not whitespace. -/
theorem okEdge_dropWhile (l : Str) : okEdge ((l.dropWhile isWS).head?) = true := by
  have h := List.head?_dropWhile_not isWS l
  revert h
  cases (l.dropWhile isWS).head? with
  | none => intro _; rfl
  | some a => intro h; simp [okEdge, h]

/-- `dropWhile isWS` does nothing on a string whose head is not whitespace. -/
theorem dropWhile_eq_self_of_okEdge {l : Str} (h : okEdge l.head? = true) :
    l.dropWhile isWS = l := by
  cases l with
  | nil => rfl
  | cons a t =>
    simp only [List.head?_cons, okEdge, Bool.not_eq_true'] at h
    simp [List.dropWhile_cons, h]

/-- The head of an append with a non-empty left part. -/
theorem head?_append_left {a : Str} (b : Str) (h : a ≠ []) :
    (a ++ b).head? = a.head? := by
  cases a with
  | nil => exact absurd rfl h
  | cons x t => rfl

/-- `stripWS` output has clean edges. -/
theorem strippedB_stripWS (q : Str) : strippedB (stripWS q) = true := by
  have hz2 : okEdge (((q.dropWhile isWS).reverse.dropWhile isWS).reverse.reverse.head?) = true := by
    rw [List.reverse_reverse]
    exact okEdge_dropWhile _
  rcases eq_or_ne ((q.dropWhile isWS).reverse.dropWhile isWS) [] with hz | hz
  · unfold stripWS strippedB
    rw [hz]
    rfl
  · obtain ⟨u, hu⟩ := dropWhile_decomp isWS (q.dropWhile isWS).reverse
    have hyrev : q.dropWhile isWS
        = ((q.dropWhile isWS).reverse.dropWhile isWS).reverse ++ u.reverse := by
      have h2 := congrArg List.reverse hu
      simpa using h2.symm
    have hne : ((q.dropWhile isWS).reverse.dropWhile isWS).reverse ≠ [] := by
      simpa using hz
    have hz1 : okEdge (((q.dropWhile isWS).reverse.dropWhile isWS).reverse.head?) = true := by
      have hh : (((q.dropWhile isWS).reverse.dropWhile isWS).reverse ++ u.reverse).head?
          = ((q.dropWhile isWS).reverse.dropWhile isWS).reverse.head? :=
        head?_append_left _ hne
      rw [← hh, ← hyrev]
      exact okEdge_dropWhile _
    unfold stripWS strippedB
    rw [hz1, hz2]
    rfl

/-- A string with clean edges is its own `stripWS`. -/
theorem stripWS_eq_self {c : Str} (h : strippedB c = true) : stripWS c = c := by
  unfold strippedB at h
  rw [Bool.and_eq_true] at h
  unfold stripWS
  rw [dropWhile_eq_self_of_okEdge h.1, dropWhile_eq_self_of_okEdge h.2,
    List.reverse_reverse]

/-- Stripping an extension of a clean-edged non-empty string only trims the
extension's tail. -/
theorem stripWS_append {c : Str} (b : Str) (h : strippedB c = true)
    (hc : c ≠ []) : stripWS (c ++ b) = c ++ stripTrail b := by
  unfold strippedB at h
  rw [Bool.and_eq_true] at h
  unfold stripWS stripTrail
  have h1 : (c ++ b).dropWhile isWS = c ++ b := by
    apply dropWhile_eq_self_of_okEdge
    rw [head?_append_left _ hc]
    exact h.1
  rw [h1, List.reverse_append]
  rw [dropWhile_append_eq]
  by_cases he : (b.reverse.dropWhile isWS).isEmpty
  · rw [if_pos he]
    rw [dropWhile_eq_self_of_okEdge h.2, List.reverse_reverse]
    have : b.reverse.dropWhile isWS = [] := by
      simpa [List.isEmpty_iff] using he
    simp [this]
  · rw [if_neg he, List.reverse_append, List.reverse_reverse]

/-!  Lemmas about adjacency-freedom and the run-replacing substitutions. -/

/-- Unfolding equation of `noAdj` on two cons cells. -/
theorem noAdj_cons2 (p : Char → Char → Bool) (a b : Char) (r : Str) :
    noAdj p (a :: b :: r) = (!p a b && noAdj p (b :: r)) := rfl

/-- Splitting `noAdj` on two cons cells. -/
theorem noAdj_pair {p : Char → Char → Bool} {a b : Char} {r : Str}
    (h : noAdj p (a :: b :: r) = true) :
    p a b = false ∧ noAdj p (b :: r) = true := by
  rw [noAdj_cons2, Bool.and_eq_true] at h
  exact ⟨by simpa using h.1, h.2⟩

/-- `noAdj` passes to the tail. -/
theorem noAdj_tail {p : Char → Char → Bool} {a : Char} {l : Str}
    (h : noAdj p (a :: l) = true) : noAdj p l = true := by
  cases l with
  | nil => rfl
  | cons b r => exact (noAdj_pair h).2

/-- Building `noAdj` on a cons cell from a head condition. -/
theorem noAdj_cons' {p : Char → Char → Bool} {c : Char} {m : Str}
    (h1 : ∀ d, m.head? = some d → p c d = false) (h2 : noAdj p m = true) :
    noAdj p (c :: m) = true := by
  cases m with
  | nil => rfl
  | cons b r =>
    rw [noAdj_cons2, Bool.and_eq_true]
    exact ⟨by simp [h1 b rfl], h2⟩

/-- `noAdj` restricts to a left part of an append. -/
theorem noAdj_append_left {p : Char → Char → Bool} :
    ∀ {x : Str} (y : Str), noAdj p (x ++ y) = true → noAdj p x = true := by
  intro x
  induction x with
  | nil => intro y _; rfl
  | cons a x' ih =>
    intro y h
    cases x' with
    | nil => rfl
    | cons b t =>
      have h' := noAdj_pair (p := p) (by simpa using h)
      rw [noAdj_cons2, Bool.and_eq_true]
      refine ⟨by simp [h'.1], ?_⟩
      exact ih y (by simpa using h'.2)

/-- `noAdj` restricts to a right part of an append. -/
theorem noAdj_append_right {p : Char → Char → Bool} :
    ∀ (x : Str) {y : Str}, noAdj p (x ++ y) = true → noAdj p y = true := by
  intro x
  induction x with
  | nil => intro y h; simpa using h
  | cons a x' ih =>
    intro y h
    exact ih (noAdj_tail (by simpa using h))

/-- `noAdj` survives stripping. -/
theorem noAdj_stripWS {p : Char → Char → Bool} {l : Str}
    (h : noAdj p l = true) : noAdj p (stripWS l) = true := by
  unfold stripWS
  obtain ⟨u1, hu1⟩ := dropWhile_decomp isWS l
  have h1 : noAdj p (l.dropWhile isWS) = true := by
    rw [← hu1] at h
    exact noAdj_append_right u1 h
  obtain ⟨u2, hu2⟩ := dropWhile_decomp isWS (l.dropWhile isWS).reverse
  have hyrev : l.dropWhile isWS
      = ((l.dropWhile isWS).reverse.dropWhile isWS).reverse ++ u2.reverse := by
    have h2 := congrArg List.reverse hu2
    simpa using h2.symm
  rw [hyrev] at h1
  exact noAdj_append_left _ h1

/-- Membership survives stripping. -/
theorem mem_stripWS {c : Char} {l : Str} (h : c ∈ stripWS l) : c ∈ l := by
  unfold stripWS at h
  obtain ⟨u1, hu1⟩ := dropWhile_decomp isWS l
  obtain ⟨u2, hu2⟩ := dropWhile_decomp isWS (l.dropWhile isWS).reverse
  rw [List.mem_reverse] at h
  have h1 : c ∈ (l.dropWhile isWS).reverse := by
    rw [← hu2]
    exact List.mem_append_right u2 h
  rw [List.mem_reverse] at h1
  rw [← hu1]
  exact List.mem_append_right u1 h1

/-- Entering the run-skipping state is dropping the run. -/
theorem runAux_true_eq (s : Char → Bool) :
    ∀ l : Str, runAux s true l = runAux s false (l.dropWhile s) := by
  intro l
  induction l with
  | nil => rfl
  | cons c r ih =>
    by_cases hc : s c
    · rw [List.dropWhile_cons_of_pos hc]
      simpa [runAux, hc] using ih
    · rw [List.dropWhile_cons_of_neg hc]
      simp [runAux, hc]

/-- Unfolding `runAux` at a class character from outside a run. -/
theorem runAux_cons_pos {s : Char → Bool} {d : Char} (r : Str)
    (hd : s d = true) : runAux s false (d :: r) = ' ' :: runAux s true r := by
  simp [runAux, hd]

/-- Unfolding `runAux` at a non-class character. -/
theorem runAux_cons_neg {s : Char → Bool} {d : Char} (fl : Bool) (r : Str)
    (hd : s d = false) : runAux s fl (d :: r) = d :: runAux s false r := by
  simp [runAux, hd]

/-- Every character of a `runAux` output is a space or from the input. -/
theorem runAux_mem {s : Char → Bool} :
    ∀ (l : Str) (fl : Bool) {c : Char}, c ∈ runAux s fl l → c = ' ' ∨ c ∈ l := by
  intro l
  induction l with
  | nil => intro fl c h; simp [runAux] at h
  | cons d r ih =>
    intro fl c h
    by_cases hd : s d
    · cases fl with
      | true =>
        have h' : c ∈ runAux s true r := by simpa [runAux, hd] using h
        rcases ih true h' with h1 | h2
        · exact Or.inl h1
        · exact Or.inr (List.mem_cons_of_mem _ h2)
      | false =>
        rw [runAux_cons_pos r hd] at h
        rcases List.mem_cons.mp h with h1 | h2
        · exact Or.inl h1
        · rcases ih true h2 with h3 | h4
          · exact Or.inl h3
          · exact Or.inr (List.mem_cons_of_mem _ h4)
    · rw [runAux_cons_neg fl r (by simpa using hd)] at h
      rcases List.mem_cons.mp h with h1 | h2
      · exact Or.inr (by rw [h1]; exact List.mem_cons_self _ _)
      · rcases ih false h2 with h3 | h4
        · exact Or.inl h3
        · exact Or.inr (List.mem_cons_of_mem _ h4)

/-- Every class character of a `runAux` output is the space separator. -/
theorem runAux_class_space {s : Char → Bool} :
    ∀ (l : Str) (fl : Bool) {c : Char}, c ∈ runAux s fl l → s c = true → c = ' ' := by
  intro l
  induction l with
  | nil => intro fl c h; simp [runAux] at h
  | cons d r ih =>
    intro fl c h hs
    by_cases hd : s d
    · cases fl with
      | true =>
        have h' : c ∈ runAux s true r := by simpa [runAux, hd] using h
        exact ih true h' hs
      | false =>
        rw [runAux_cons_pos r hd] at h
        rcases List.mem_cons.mp h with h1 | h2
        · exact h1
        · exact ih true h2 hs
    · rw [runAux_cons_neg fl r (by simpa using hd)] at h
      rcases List.mem_cons.mp h with h1 | h2
      · rw [h1] at hs; exact absurd hs (by simpa using hd)
      · exact ih false h2 hs

/-- Dropping a prefix does not lengthen the list. -/
theorem dropWhile_length_le (p : Char → Bool) (l : Str) :
    (l.dropWhile p).length ≤ l.length := by
  obtain ⟨u, hu⟩ := dropWhile_decomp p l
  calc (l.dropWhile p).length ≤ u.length + (l.dropWhile p).length := Nat.le_add_left _ _
    _ = l.length := by rw [← List.length_append, hu]

/-- The output of a run substitution never has two adjacent class
characters (strong induction on the length). -/
theorem runAux_noAdj_class (s : Char → Bool) :
    ∀ (n : ℕ) (l : Str), l.length ≤ n →
      noAdj (fun a b => s a && s b) (runAux s false l) = true := by
  intro n
  induction n with
  | zero =>
    intro l hl
    rw [List.length_eq_zero.mp (Nat.le_zero.mp hl)]
    rfl
  | succ n ih =>
    intro l hl
    cases l with
    | nil => rfl
    | cons d r =>
      by_cases hd : s d
      · rw [runAux_cons_pos r hd, runAux_true_eq]
        apply noAdj_cons'
        · intro e he
          cases hr : r.dropWhile s with
          | nil => rw [hr] at he; simp [runAux] at he
          | cons d' t' =>
            have hd' : s d' = false := by
              have := List.head?_dropWhile_not s r
              rw [hr] at this
              simpa using this
            rw [hr, runAux_cons_neg false t' hd'] at he
            simp only [List.head?_cons, Option.some.injEq] at he
            rw [← he]
            simp [hd']
        · exact ih _ (le_trans (dropWhile_length_le _ _)
            (Nat.le_of_succ_le_succ hl))
      · rw [runAux_cons_neg false r (by simpa using hd)]
        apply noAdj_cons'
        · intro e _
          simp [show s d = false by simpa using hd]
        · exact ih r (Nat.le_of_succ_le_succ hl)

/-- A run substitution preserves adjacency-freedom for any pair predicate
that never fires against a space. -/
theorem runAux_noAdj_preserve (s : Char → Bool) (p : Char → Char → Bool)
    (hp1 : ∀ y, p ' ' y = false) (hp2 : ∀ x, p x ' ' = false) :
    ∀ (n : ℕ) (l : Str), l.length ≤ n → noAdj p l = true →
      noAdj p (runAux s false l) = true := by
  intro n
  induction n with
  | zero =>
    intro l hl _
    rw [List.length_eq_zero.mp (Nat.le_zero.mp hl)]
    rfl
  | succ n ih =>
    intro l hl hn
    cases l with
    | nil => rfl
    | cons d r =>
      by_cases hd : s d
      · rw [runAux_cons_pos r hd, runAux_true_eq]
        apply noAdj_cons'
        · intro e _
          exact hp1 e
        · refine ih _ (le_trans (dropWhile_length_le _ _)
            (Nat.le_of_succ_le_succ hl)) ?_
          obtain ⟨u, hu⟩ := dropWhile_decomp s r
          have htail : noAdj p r = true := noAdj_tail hn
          rw [← hu] at htail
          exact noAdj_append_right u htail
      · rw [runAux_cons_neg false r (by simpa using hd)]
        apply noAdj_cons'
        · intro e he
          cases r with
          | nil => simp [runAux] at he
          | cons d2 r2 =>
            by_cases hd2 : s d2
            · rw [runAux_cons_pos r2 hd2] at he
              simp only [List.head?_cons, Option.some.injEq] at he
              rw [← he]
              exact hp2 d
            · rw [runAux_cons_neg false r2 (by simpa using hd2)] at he
              simp only [List.head?_cons, Option.some.injEq] at he
              rw [← he]
              exact (noAdj_pair hn).1
        · exact ih r (Nat.le_of_succ_le_succ hl) (noAdj_tail hn)

/-- A run substitution is the identity on strings whose class characters
are already single spaces. -/
theorem runAux_eq_self {s : Char → Bool} :
    ∀ l : Str, (∀ c ∈ l, s c = true → c = ' ') →
      noAdj (fun a b => s a && s b) l = true → runAux s false l = l := by
  intro l
  induction l with
  | nil => intro _ _; rfl
  | cons d r ih =>
    intro hmem hn
    by_cases hd : s d
    · have hds : d = ' ' := hmem d (List.mem_cons_self _ _) hd
      rw [runAux_cons_pos r hd, runAux_true_eq]
      cases r with
      | nil => simp [runAux, hds]
      | cons d2 r2 =>
        have hd2 : s d2 = false := by
          have h1 := (noAdj_pair hn).1
          rw [hd] at h1
          simpa using h1
        rw [List.dropWhile_cons_of_neg (by simp [hd2])]
        rw [ih (fun c hc hsc => hmem c (List.mem_cons_of_mem _ hc) hsc) (noAdj_tail hn)]
        rw [hds]
    · rw [runAux_cons_neg false r (by simpa using hd)]
      rw [ih (fun c hc hsc => hmem c (List.mem_cons_of_mem _ hc) hsc) (noAdj_tail hn)]

/-- `sepBy` keeps the head of its input. -/
theorem sepBy_cons (p2 : Char → Char → Bool) (b : Char) (r : Str) :
    ∃ t, sepBy p2 (b :: r) = b :: t := by
  cases r with
  | nil => exact ⟨[], rfl⟩
  | cons c r2 =>
    cases h : p2 b c with
    | true => exact ⟨' ' :: sepBy p2 (c :: r2), by simp [sepBy, h]⟩
    | false => exact ⟨sepBy p2 (c :: r2), by simp [sepBy, h]⟩

/-- The output of `sepBy p2` is `p2`-adjacency-free, provided `p2` never
fires against a space. -/
theorem sepBy_noAdj_self (p2 : Char → Char → Bool)
    (h1 : ∀ x, p2 x ' ' = false) (h2 : ∀ y, p2 ' ' y = false) :
    ∀ l : Str, noAdj p2 (sepBy p2 l) = true := by
  intro l
  induction l with
  | nil => rfl
  | cons a r ih =>
    cases r with
    | nil => rfl
    | cons b r2 =>
      obtain ⟨t, ht⟩ := sepBy_cons p2 b r2
      cases hab : p2 a b with
      | true =>
        rw [show sepBy p2 (a :: b :: r2) = a :: ' ' :: sepBy p2 (b :: r2) from by
          simp [sepBy, hab]]
        apply noAdj_cons'
        · intro e he
          simp only [List.head?_cons, Option.some.injEq] at he
          rw [← he]
          exact h1 a
        · apply noAdj_cons'
          · intro e he
            rw [ht] at he
            simp only [List.head?_cons, Option.some.injEq] at he
            rw [← he]
            exact h2 b
          · exact ih
      | false =>
        rw [show sepBy p2 (a :: b :: r2) = a :: sepBy p2 (b :: r2) from by
          simp [sepBy, hab]]
        apply noAdj_cons'
        · intro e he
          rw [ht] at he
          simp only [List.head?_cons, Option.some.injEq] at he
          rw [← he]
          exact hab
        · exact ih

/-- `sepBy p2` preserves adjacency-freedom for any other pair predicate
that never fires against a space. -/
theorem sepBy_noAdj_preserve (p2 q2 : Char → Char → Bool)
    (h1 : ∀ x, q2 x ' ' = false) (h2 : ∀ y, q2 ' ' y = false) :
    ∀ l : Str, noAdj q2 l = true → noAdj q2 (sepBy p2 l) = true := by
  intro l
  induction l with
  | nil => intro _; rfl
  | cons a r ih =>
    intro hn
    cases r with
    | nil => rfl
    | cons b r2 =>
      obtain ⟨t, ht⟩ := sepBy_cons p2 b r2
      have hq : q2 a b = false := (noAdj_pair hn).1
      cases hab : p2 a b with
      | true =>
        rw [show sepBy p2 (a :: b :: r2) = a :: ' ' :: sepBy p2 (b :: r2) from by
          simp [sepBy, hab]]
        apply noAdj_cons'
        · intro e he
          simp only [List.head?_cons, Option.some.injEq] at he
          rw [← he]
          exact h1 a
        · apply noAdj_cons'
          · intro e he
            rw [ht] at he
            simp only [List.head?_cons, Option.some.injEq] at he
            rw [← he]
            exact h2 b
          · exact ih (noAdj_tail hn)
      | false =>
        rw [show sepBy p2 (a :: b :: r2) = a :: sepBy p2 (b :: r2) from by
          simp [sepBy, hab]]
        apply noAdj_cons'
        · intro e he
          rw [ht] at he
          simp only [List.head?_cons, Option.some.injEq] at he
          rw [← he]
          exact hq
        · exact ih (noAdj_tail hn)

/-- `sepBy p2` is the identity on `p2`-adjacency-free strings. -/
theorem sepBy_eq_self (p2 : Char → Char → Bool) :
    ∀ l : Str, noAdj p2 l = true → sepBy p2 l = l := by
  intro l
  induction l with
  | nil => intro _; rfl
  | cons a r ih =>
    intro hn
    cases r with
    | nil => rfl
    | cons b r2 =>
      have hq : p2 a b = false := (noAdj_pair hn).1
      rw [show sepBy p2 (a :: b :: r2) = a :: sepBy p2 (b :: r2) from by
        simp [sepBy, hq]]
      rw [ih (noAdj_tail hn)]

/-- `sepBy` inserts spaces and keeps the input's characters. -/
theorem sepBy_mem (p2 : Char → Char → Bool) :
    ∀ (l : Str) {c : Char}, c ∈ sepBy p2 l → c = ' ' ∨ c ∈ l := by
  intro l
  induction l with
  | nil => intro c h; simp [sepBy] at h
  | cons a r ih =>
    intro c h
    cases r with
    | nil =>
      simp only [sepBy] at h
      exact Or.inr h
    | cons b r2 =>
      cases hab : p2 a b with
      | true =>
        rw [show sepBy p2 (a :: b :: r2) = a :: ' ' :: sepBy p2 (b :: r2) from by
          simp [sepBy, hab]] at h
        rcases List.mem_cons.mp h with h1 | h2
        · exact Or.inr (by rw [h1]; exact List.mem_cons_self _ _)
        · rcases List.mem_cons.mp h2 with h3 | h4
          · exact Or.inl h3
          · rcases ih h4 with h5 | h6
            · exact Or.inl h5
            · exact Or.inr (List.mem_cons_of_mem _ h6)
      | false =>
        rw [show sepBy p2 (a :: b :: r2) = a :: sepBy p2 (b :: r2) from by
          simp [sepBy, hab]] at h
        rcases List.mem_cons.mp h with h1 | h2
        · exact Or.inr (by rw [h1]; exact List.mem_cons_self _ _)
        · rcases ih h2 with h3 | h4
          · exact Or.inl h3
          · exact Or.inr (List.mem_cons_of_mem _ h4)

/-- `lowerS` distributes over append. -/
theorem lowerS_append (a b : Str) : lowerS (a ++ b) = lowerS a ++ lowerS b :=
  List.map_append _ _ _

/-- The `ecu` substitution is the identity on strings that do not contain
"ecu" case-insensitively (strong induction on the length, mirroring the
scan). -/
theorem ecuRepl_eq_self :
    ∀ (n : ℕ) (l : Str) (fl : Bool), l.length ≤ n →
      containsSub (lowerS l) (str "ecu") = false → ecuRepl fl l = l := by
  intro n
  induction n with
  | zero =>
    intro l fl hl _
    rw [List.length_eq_zero.mp (Nat.le_zero.mp hl)]
    cases fl <;> rfl
  | succ n ih =>
    intro l fl hl hc
    rcases l with _ | ⟨c1, _ | ⟨c2, _ | ⟨c3, rest⟩⟩⟩
    · cases fl <;> rfl
    · cases fl <;> rfl
    · cases fl <;> rfl
    · have hctail : containsSub (lowerS (c2 :: c3 :: rest)) (str "ecu") = false := by
        rw [show lowerS (c1 :: c2 :: c3 :: rest)
            = Char.toLower c1 :: lowerS (c2 :: c3 :: rest) from rfl,
          containsSub_cons, Bool.or_eq_false_iff] at hc
        exact hc.2
      simp only [ecuRepl]
      split
      · next hcond =>
        exfalso
        simp only [Bool.and_eq_true, Bool.or_eq_true, decide_eq_true_eq,
          Bool.not_eq_true'] at hcond
        obtain ⟨⟨⟨⟨_, hc1⟩, hc2⟩, hc3⟩, _⟩ := hcond
        have e1 : Char.toLower c1 = 'e' := by rcases hc1 with h | h <;> rw [h] <;> decide
        have e2 : Char.toLower c2 = 'c' := by rcases hc2 with h | h <;> rw [h] <;> decide
        have e3 : Char.toLower c3 = 'u' := by rcases hc3 with h | h <;> rw [h] <;> decide
        have hsw : startsWith (lowerS (c1 :: c2 :: c3 :: rest)) (str "ecu") = true := by
          show startsWith (Char.toLower c1 :: Char.toLower c2 :: Char.toLower c3 ::
            lowerS rest) (str "ecu") = true
          rw [e1, e2, e3]
          simp [startsWith, str]
        have hcf : containsSub (lowerS (c1 :: c2 :: c3 :: rest)) (str "ecu") = true := by
          rw [show lowerS (c1 :: c2 :: c3 :: rest)
              = Char.toLower c1 :: lowerS (c2 :: c3 :: rest) from rfl, containsSub_cons]
          rw [show (Char.toLower c1 :: lowerS (c2 :: c3 :: rest) : Str)
              = lowerS (c1 :: c2 :: c3 :: rest) from rfl]
          rw [hsw]
          rfl
        rw [hcf] at hc
        exact absurd hc (by decide)
      · next =>
        have htl : ecuRepl (isWordCh c1) (c2 :: c3 :: rest) = c2 :: c3 :: rest := by
          apply ih _ _ _ hctail
          have := hl
          simp only [List.length_cons] at this ⊢
          omega
        rw [htl]

/-- `ecuSub` is the identity when the string has no "ecu". -/
theorem ecuSub_eq_self {l : Str}
    (hc : containsSub (lowerS l) (str "ecu") = false) : ecuSub l = l :=
  ecuRepl_eq_self l.length l false le_rfl hc

/-!  Fixed-point lemmas for the synonym expansion. -/

/-- Expansion with no firing group only re-strips the clean query. -/
theorem expand_synonyms_nohit {c : Str} (hs : strippedB c = true)
    (hh : hasSynHit c = false) : expand_synonyms c = c := by
  have hextra : synExtra c = [] := by
    unfold hasSynHit at hh
    rw [List.any_eq_false] at hh
    unfold synExtra
    rw [List.filter_eq_nil_iff.mpr (fun g hg => by simpa using hh g hg)]
    rfl
  unfold expand_synonyms
  rw [hextra]
  rcases eq_or_ne c [] with hc | hc
  · subst hc
    decide
  · rw [show (' ' :: joinWords [] : Str) = [' '] from rfl]
    rw [stripWS_append [' '] hs hc]
    rw [show stripTrail [' '] = [] from by decide]
    simp

/-- A firing group still fires after expansion (the clean query is kept as
a prefix of the expanded query). -/
theorem hasSynHit_expand {c : Str} (hs : strippedB c = true)
    (hh : hasSynHit c = true) : hasSynHit (expand_synonyms c) = true := by
  have hcne : c ≠ [] := by
    intro h
    rw [h] at hh
    exact absurd hh (by decide)
  unfold expand_synonyms
  rw [stripWS_append _ hs hcne]
  unfold hasSynHit at hh ⊢
  rw [List.any_eq_true] at hh ⊢
  obtain ⟨g, hg, hhit⟩ := hh
  refine ⟨g, hg, ?_⟩
  unfold synHit at hhit ⊢
  rw [Bool.or_eq_true] at hhit ⊢
  rcases hhit with h1 | h2
  · left
    rw [lowerS_append]
    exact containsSub_append _ h1
  · right
    rw [List.any_eq_true] at h2 ⊢
    obtain ⟨v, hv, hcv⟩ := h2
    refine ⟨v, hv, ?_⟩
    rw [lowerS_append]
    exact containsSub_append _ hcv

/-!  Properties of the cleaning pipeline's output, and its fixed point. -/

/-- `latinCJK` never fires with a space on the left. -/
theorem latinCJK_space_l (y : Char) : latinCJK ' ' y = false := by
  simp [latinCJK, show isLatinDigit ' ' = false from by decide]

/-- `latinCJK` never fires with a space on the right. -/
theorem latinCJK_space_r (x : Char) : latinCJK x ' ' = false := by
  simp [latinCJK, show isCJK ' ' = false from by decide]

/-- `cjkLatin` never fires with a space on the left. -/
theorem cjkLatin_space_l (y : Char) : cjkLatin ' ' y = false := by
  simp [cjkLatin, show isCJK ' ' = false from by decide]

/-- `cjkLatin` never fires with a space on the right. -/
theorem cjkLatin_space_r (x : Char) : cjkLatin x ' ' = false := by
  simp [cjkLatin, show isLatinDigit ' ' = false from by decide]

/-- A string without class characters is adjacency-free for the class
pair predicate. -/
theorem noAdj_of_no_class {s : Char → Bool} :
    ∀ l : Str, (∀ ch ∈ l, s ch = false) →
      noAdj (fun a b => s a && s b) l = true := by
  intro l
  induction l with
  | nil => intro _; rfl
  | cons a r ih =>
    intro h
    cases r with
    | nil => rfl
    | cons b r2 =>
      rw [noAdj_cons2, Bool.and_eq_true]
      refine ⟨by simp [h a (List.mem_cons_self _ _)], ?_⟩
      exact ih (fun ch hc => h ch (List.mem_cons_of_mem _ hc))

/-- The cleaned query has clean edges. -/
theorem cleanStage_strippedB (q : Str) : strippedB (cleanStage q) = true :=
  strippedB_stripWS _

/-- The cleaned query has no Latin-then-CJK adjacency. -/
theorem cleanStage_noAdj_latinCJK (q : Str) :
    noAdj latinCJK (cleanStage q) = true := by
  unfold cleanStage runSub sepANCJK sepCJKAN
  apply noAdj_stripWS
  refine runAux_noAdj_preserve isWS latinCJK latinCJK_space_l latinCJK_space_r
    _ _ le_rfl ?_
  refine runAux_noAdj_preserve isPunctSym latinCJK latinCJK_space_l
    latinCJK_space_r _ _ le_rfl ?_
  refine sepBy_noAdj_preserve cjkLatin latinCJK latinCJK_space_r
    latinCJK_space_l _ ?_
  exact sepBy_noAdj_self latinCJK latinCJK_space_r latinCJK_space_l _

/-- The cleaned query has no CJK-then-Latin adjacency. -/
theorem cleanStage_noAdj_cjkLatin (q : Str) :
    noAdj cjkLatin (cleanStage q) = true := by
  unfold cleanStage runSub sepCJKAN
  apply noAdj_stripWS
  refine runAux_noAdj_preserve isWS cjkLatin cjkLatin_space_l cjkLatin_space_r
    _ _ le_rfl ?_
  refine runAux_noAdj_preserve isPunctSym cjkLatin cjkLatin_space_l
    cjkLatin_space_r _ _ le_rfl ?_
  exact sepBy_noAdj_self cjkLatin cjkLatin_space_r cjkLatin_space_l _

/-- The cleaned query contains no symbol characters. -/
theorem cleanStage_no_punct (q : Str) :
    ∀ ch ∈ cleanStage q, isPunctSym ch = false := by
  intro ch hc
  unfold cleanStage runSub at hc
  have h1 := mem_stripWS hc
  rcases runAux_mem _ _ h1 with h2 | h2
  · rw [h2]; decide
  · by_cases hp : isPunctSym ch = true
    · have hsp := runAux_class_space _ _ h2 hp
      rw [hsp] at hp
      exact absurd hp (by decide)
    · simpa using hp

/-- Every whitespace character of the cleaned query is a plain space. -/
theorem cleanStage_ws_space (q : Str) :
    ∀ ch ∈ cleanStage q, isWS ch = true → ch = ' ' := by
  intro ch hc hw
  unfold cleanStage runSub at hc
  exact runAux_class_space _ _ (mem_stripWS hc) hw

/-- The cleaned query has no two adjacent whitespace characters. -/
theorem cleanStage_noAdj_ws (q : Str) : noAdj wsPair (cleanStage q) = true := by
  unfold cleanStage runSub
  apply noAdj_stripWS
  show noAdj (fun a b => isWS a && isWS b) _ = true
  exact runAux_noAdj_class isWS _ _ le_rfl

/-- The cleaning pipeline is the identity on a string that is already in
its image and contains no "ecu". -/
theorem cleanStage_eq_self {c : Str} (hst : strippedB c = true)
    (hlc : noAdj latinCJK c = true) (hcl : noAdj cjkLatin c = true)
    (hnp : ∀ ch ∈ c, isPunctSym ch = false)
    (hws : ∀ ch ∈ c, isWS ch = true → ch = ' ')
    (hwadj : noAdj wsPair c = true)
    (hecu : containsSub (lowerS c) (str "ecu") = false) :
    cleanStage c = c := by
  unfold cleanStage runSub sepANCJK sepCJKAN
  rw [stripWS_eq_self hst]
  rw [ecuSub_eq_self hecu]
  rw [sepBy_eq_self latinCJK c hlc]
  rw [sepBy_eq_self cjkLatin c hcl]
  rw [runAux_eq_self c (fun ch hm hp => absurd hp (by simp [hnp ch hm]))
    (noAdj_of_no_class c hnp)]
  rw [runAux_eq_self c hws (by exact hwadj)]
  exact stripWS_eq_self hst

/-- When the normalised query triggers no synonym group, the ecu group in
particular did not fire, so the cleaned text contains no "ecu". -/
theorem no_ecu_of_no_hit {c : Str} (hh : hasSynHit c = false) :
    containsSub (lowerS c) (str "ecu") = false := by
  unfold hasSynHit at hh
  rw [List.any_eq_false] at hh
  have hmem : (str "ecu", [str "ECU", str "电脑板", str "控制器", str "电控",
      str "发动机电脑"]) ∈ SYNONYMS := by decide
  have hg := hh _ hmem
  unfold synHit at hg
  rw [Bool.or_eq_true] at hg
  push_neg at hg
  have h1 := hg.1
  rw [show lowerS (str "ecu") = str "ecu" from by decide] at h1
  simpa using h1

/-- Re-normalising a normalised query that triggers no synonym group gives
it back unchanged. -/
theorem normalize_query_fix {q : Str}
    (h : hasSynHit (normalize_query q) = false) :
    normalize_query (normalize_query q) = normalize_query q := by
  have hs : strippedB (cleanStage q) = true := cleanStage_strippedB q
  cases hc : hasSynHit (cleanStage q) with
  | true =>
    exfalso
    have hx := hasSynHit_expand hs hc
    unfold normalize_query at h
    rw [h] at hx
    exact absurd hx (by decide)
  | false =>
    have hEq : expand_synonyms (cleanStage q) = cleanStage q :=
      expand_synonyms_nohit hs hc
    show expand_synonyms (cleanStage (normalize_query q)) = normalize_query q
    unfold normalize_query
    rw [hEq]
    rw [cleanStage_eq_self hs (cleanStage_noAdj_latinCJK q)
      (cleanStage_noAdj_cjkLatin q) (cleanStage_no_punct q)
      (cleanStage_ws_space q) (cleanStage_noAdj_ws q) (no_ecu_of_no_hit hc)]
    exact hEq

/-- C1, counterexample: the claim `normalize_query (normalize_query q) =
normalize_query q` for `q` an output of `normalize_query` fails at
`q = normalize_query "fuse"` — the 保险丝 synonym group fires again on the
already-expanded text and appends its expansion once more. -/
theorem normalize_query_idem_cex :
    normalize_query (normalize_query (normalize_query (str "fuse"))) ≠
      normalize_query (normalize_query (str "fuse")) := by decide

/-- C1 (amended): normalisation is idempotent on queries whose normalised
form triggers no synonym group; within one call, synonym expansion is
applied once, against the pre-expansion text, never recursively.  For a
query whose normalised form still triggers a group (every synonym-expanded
output does, since expansion inserts the triggering words themselves),
each further normalisation appends that group's expansion once more, so
re-normalisation is not a fixed point. -/
theorem normalize_query_idem_no_hit (q0 : Str)
    (h : hasSynHit (normalize_query q0) = false) :
    normalize_query (normalize_query (normalize_query q0)) =
      normalize_query (normalize_query q0) := by
  have hEq := normalize_query_fix h
  rw [hEq]
  exact hEq

/-- C1 witness: the amended idempotence at the concrete query "abc". -/
theorem normalize_query_idem_no_hit_witness :
    hasSynHit (normalize_query (str "abc")) = false ∧
    normalize_query (normalize_query (normalize_query (str "abc"))) =
      normalize_query (normalize_query (str "abc")) :=
  ⟨by decide, normalize_query_idem_no_hit (str "abc") (by decide)⟩

/-!  Lemmas about the stable descending sort and the retrieval engine. -/

/-- Insertion preserves length plus one. -/
theorem length_insDescBy {α : Type} (key : α → ℚ) (x : α) :
    ∀ l : List α, (insDescBy key x l).length = l.length + 1 := by
  intro l
  induction l with
  | nil => rfl
  | cons y ys ih =>
    unfold insDescBy
    by_cases h : key y ≤ key x
    · simp [h]
    · simp [h, ih]

/-- Sorting preserves length. -/
theorem length_sortDescBy {α : Type} (key : α → ℚ) :
    ∀ l : List α, (sortDescBy key l).length = l.length := by
  intro l
  induction l with
  | nil => rfl
  | cons x xs ih =>
    unfold sortDescBy
    rw [length_insDescBy, ih]
    rfl

/-- Sorting a list whose keys are all equal leaves it unchanged. -/
theorem sortDescBy_const {α : Type} (key : α → ℚ) (v : ℚ) :
    ∀ l : List α, (∀ a ∈ l, key a = v) → sortDescBy key l = l := by
  intro l
  induction l with
  | nil => intro _; rfl
  | cons x xs ih =>
    intro h
    unfold sortDescBy
    rw [ih (fun a ha => h a (List.mem_cons_of_mem _ ha))]
    cases xs with
    | nil => rfl
    | cons y ys =>
      unfold insDescBy
      rw [h y (List.mem_cons_of_mem _ (List.mem_cons_self _ _)),
        h x (List.mem_cons_self _ _)]
      simp

/-- The intent re-weighting step preserves length. -/
theorem length_rankedWithIntent (o : Option Intent) (u : Bool)
    (r : List SDoc) : (rankedWithIntent o u r).length = r.length := by
  unfold rankedWithIntent
  cases u with
  | false => rfl
  | true =>
    cases o with
    | none => rfl
    | some it =>
      simp only [if_true]
      rw [length_sortDescBy, List.length_map]

/-- The `min_score` filter never empties a non-empty ranking. -/
theorem minScoreFilter_ne_nil (ms : ℚ) {r : List SDoc} (h : r ≠ []) :
    minScoreFilter ms r ≠ [] := by
  unfold minScoreFilter
  by_cases h0 : 0 < ms
  · rw [if_pos h0]
    by_cases hf : r.filter (fun sd => decide (ms ≤ sd.score)) ≠ []
    · rw [if_pos (by simpa using hf)]
      exact hf
    · rw [if_neg (by simpa using hf)]
      exact h
  · rwa [if_neg h0]

/-- `qmax` is the lattice maximum. -/
theorem qmax_eq_max (a b : ℚ) : qmax a b = max a b := by
  rw [max_def]
  rfl

/-- The intent step does nothing without a hint. -/
theorem rankedWithIntent_none (u : Bool) (r : List SDoc) :
    rankedWithIntent none u r = r := by
  cases u <;> rfl

/-- The intent step does nothing when disabled. -/
theorem rankedWithIntent_off (o : Option Intent) (r : List SDoc) :
    rankedWithIntent o false r = r := rfl

/-- The `min_score` filter does nothing at the default threshold 0. -/
theorem minScoreFilter_zero (r : List SDoc) : minScoreFilter 0 r = r := by
  unfold minScoreFilter
  rw [if_neg (lt_irrefl 0)]

/-- C9: `score_row` satisfies its contract — for title and path
independently, the maximum of the three similarity measures (token-set,
partial-substring, weighted composite), combined as
`0.7 * title_similarity + 0.3 * path_similarity`; as a Lean function of
the three strings (and the abstracted measures) it is pure and
deterministic by construction. -/
theorem score_row_contract (fz : Fuzz) (query title path : Str) :
    score_row fz query title path =
      7/10 * max (max (fz.tokenSetR query title) (fz.partialR query title))
        (fz.wR query title) +
      3/10 * max (max (fz.tokenSetR query path) (fz.partialR query path))
        (fz.wR query path) := by
  unfold score_row
  simp only [qmax_eq_max]

/-- C8: when the Intent Extractor yields no hint, retrieval with the LLM
toggle on coincides exactly with retrieval with the toggle off (for any
oracle value, since the off path never consults it); in the model the
call-out's failure is already absorbed into the `none` oracle value, so no
error reaches the caller. -/
theorem search_topk_intent_none (lg : ℚ → ℚ) (fz : Fuzz) (o : Option Intent)
    (df : List Doc) (query : Str) (k pool : ℕ) (ms : ℚ) :
    search_topk lg fz none df query k pool ms true =
      search_topk lg fz o df query k pool ms false := by
  unfold search_topk
  simp only [rankedWithIntent_none, rankedWithIntent_off]

/-- C5: when at least one token survives tokenisation but no document's
blob contains any of the tokens, the candidate set falls back to the whole
corpus, and the search result is non-empty for a non-empty corpus (any
positive `k` and pool size, any `min_score`, any intent setting). -/
theorem search_topk_recall_fallback (lg : ℚ → ℚ) (fz : Fuzz)
    (o : Option Intent) (df : List Doc) (query : Str) (k pool : ℕ) (ms : ℚ)
    (u : Bool) (hdf : df ≠ []) (hk : 1 ≤ k) (hp : 1 ≤ pool)
    (ht : qTokens (normalize_query query) ≠ [])
    (hm : df.any (tokenMatch (qTokens (normalize_query query))) = false) :
    searchCandidates df (qTokens (normalize_query query)) = df ∧
    search_topk lg fz o df query k pool ms u ≠ [] := by
  have hqn : normalize_query query ≠ [] := by
    intro h
    rw [h] at ht
    exact ht (by decide)
  have hcand : searchCandidates df (qTokens (normalize_query query)) = df := by
    unfold searchCandidates
    rw [if_neg]
    intro hcon
    rw [hm] at hcon
    exact absurd hcon.2 (by decide)
  refine ⟨hcand, ?_⟩
  simp only [search_topk]
  rw [if_neg hqn]
  rw [ne_eq, List.take_eq_nil_iff]
  push_neg
  refine ⟨by omega, ?_⟩
  apply minScoreFilter_ne_nil
  intro hY
  have hlen := congrArg List.length hY
  rw [length_rankedWithIntent, length_sortDescBy, List.length_map,
    List.length_take, length_sortDescBy, hcand] at hlen
  have hN : 0 < df.length := List.length_pos.mpr hdf
  simp only [List.length_nil] at hlen
  omega

/-- C5 witness: the recall-preserving fallback at a one-row corpus and the
query "zz", none of whose tokens occurs in the corpus. -/
theorem search_topk_recall_fallback_witness :
    c5df ≠ [] ∧ (1 : ℕ) ≤ 1 ∧
    qTokens (normalize_query (str "zz")) ≠ [] ∧
    c5df.any (tokenMatch (qTokens (normalize_query (str "zz")))) = false ∧
    (searchCandidates c5df (qTokens (normalize_query (str "zz"))) = c5df ∧
      search_topk (fun _ => 0) fzZero none c5df (str "zz") 1 1 0 false ≠ []) :=
  ⟨by decide, le_rfl, by decide, by decide,
    search_topk_recall_fallback (fun _ => 0) fzZero none c5df (str "zz") 1 1 0
      false (by decide) le_rfl le_rfl (by decide) (by decide)⟩

/-- C10 (amended): when normalisation is non-empty but every token is
dropped for being a single character, the whole corpus becomes the
candidate set, every weighted-hit score is 0, and the ranking is by the
fuzzy score **plus the fixed 住友/sumitomo-4hk1 co-occurrence bonus**
(utils.py lines 230-231, which applies even with no tokens), truncated to
`k`; the result is non-empty for a non-empty corpus and positive `k` and
pool. -/
theorem search_topk_short_tokens (lg : ℚ → ℚ) (fz : Fuzz) (df : List Doc)
    (query : Str) (k pool : ℕ)
    (h1 : normalize_query query ≠ [])
    (h2 : qTokens (normalize_query query) = []) :
    searchCandidates df (qTokens (normalize_query query)) = df ∧
    (∀ d ∈ df, whitScore (tokenIdf lg df (normalize_query query)) d = 0) ∧
    search_topk lg fz none df query k pool 0 false =
      c10fuzzyCooc fz df query k pool ∧
    (df ≠ [] → 1 ≤ k → 1 ≤ pool →
      search_topk lg fz none df query k pool 0 false ≠ []) := by
  have hidf : tokenIdf lg df (normalize_query query) = [] := by
    unfold tokenIdf
    rw [h2]
    rfl
  have hcand : searchCandidates df (qTokens (normalize_query query)) = df := by
    unfold searchCandidates
    rw [if_neg]
    intro hcon
    exact hcon.1 h2
  have hwhit : ∀ d ∈ df, whitScore (tokenIdf lg df (normalize_query query)) d = 0 := by
    intro d _
    rw [hidf]
    rfl
  have hmain : search_topk lg fz none df query k pool 0 false =
      c10fuzzyCooc fz df query k pool := by
    simp only [search_topk]
    rw [if_neg h1, hidf, hcand]
    rw [sortDescBy_const (whitScore []) 0 df (fun d _ => rfl)]
    rw [minScoreFilter_zero, rankedWithIntent_off]
    unfold c10fuzzyCooc
    have hf : (fun d : Doc => SDoc.mk d.id d.title d.path
          (fullScore fz [] (normalize_query query) d)) =
        (fun d : Doc => SDoc.mk d.id d.title d.path
          (score_row fz (normalize_query query) d.title d.path + coocBonus d)) := by
      funext d
      unfold fullScore whitScore hitCnt
      simp
    rw [hf]
  refine ⟨hcand, hwhit, hmain, ?_⟩
  intro hdf hk hp
  rw [hmain]
  unfold c10fuzzyCooc
  rw [ne_eq, List.take_eq_nil_iff]
  push_neg
  refine ⟨by omega, ?_⟩
  intro hY
  have hlen := congrArg List.length hY
  rw [length_sortDescBy, List.length_map, List.length_take] at hlen
  have hN : 0 < df.length := List.length_pos.mpr hdf
  simp only [List.length_nil] at hlen
  omega

/-- C10, counterexample to the claim as stated: with all tokens dropped
the code does **not** rank purely by the fuzzy score — a document whose
blob contains sumitomo and 4hk1 still draws the fixed +80 bonus and
overtakes an earlier document with an equal fuzzy score. -/
theorem search_topk_short_tokens_cex :
    (search_topk (fun _ => 0) fzZero none [c10doc1, c10doc2] (str "中") 5 300
        0 false).map (fun sd => sd.id) ≠
      (c10pureFuzzy fzZero [c10doc1, c10doc2] (str "中") 5 300).map
        (fun sd => sd.id) := by
  with_unfolding_all decide

/-- C10 witness: the amended statement at the two-document corpus and the
query "中" (one CJK character, dropped by tokenisation). -/
theorem search_topk_short_tokens_witness :
    normalize_query (str "中") ≠ [] ∧
    qTokens (normalize_query (str "中")) = [] ∧
    (searchCandidates [c10doc1, c10doc2] (qTokens (normalize_query (str "中")))
        = [c10doc1, c10doc2] ∧
      (∀ d ∈ [c10doc1, c10doc2],
        whitScore (tokenIdf (fun _ => 0) [c10doc1, c10doc2]
          (normalize_query (str "中"))) d = 0) ∧
      search_topk (fun _ => 0) fzZero none [c10doc1, c10doc2] (str "中") 5 300
          0 false = c10fuzzyCooc fzZero [c10doc1, c10doc2] (str "中") 5 300 ∧
      ([c10doc1, c10doc2] ≠ [] → 1 ≤ 5 → 1 ≤ 300 →
        search_topk (fun _ => 0) fzZero none [c10doc1, c10doc2] (str "中") 5 300
          0 false ≠ [])) :=
  ⟨by decide, by decide,
    search_topk_short_tokens (fun _ => 0) fzZero [c10doc1, c10doc2] (str "中")
      5 300 (by decide) (by decide)⟩

/-!  The filter applier and the narrowing state machine. -/

/-- `apply_filters_smart` over a cons cell of filters. -/
theorem apply_filters_smart_cons (base : List SDoc) (f : Str)
    (fs : List Str) :
    apply_filters_smart base (f :: fs) =
      apply_filters_smart
        (base.filter (fun sd =>
          check_text_matches_any (blobS sd) (get_expanded_keywords f))) fs := rfl

/-- `apply_filters_smart` with no filters. -/
theorem apply_filters_smart_nil (base : List SDoc) :
    apply_filters_smart base [] = base := rfl

/-- Membership in a filtered result set: retained iff present in the base
set and matching every filter term's synonym expansion. -/
theorem mem_apply_filters_smart :
    ∀ (fs : List Str) (base : List SDoc) (d : SDoc),
      d ∈ apply_filters_smart base fs ↔
        d ∈ base ∧ ∀ f ∈ fs,
          check_text_matches_any (blobS d) (get_expanded_keywords f) = true := by
  intro fs
  induction fs with
  | nil =>
    intro base d
    rw [apply_filters_smart_nil]
    simp
  | cons f rest ih =>
    intro base d
    rw [apply_filters_smart_cons, ih]
    rw [List.mem_filter]
    constructor
    · rintro ⟨⟨hb, hm⟩, hrest⟩
      refine ⟨hb, ?_⟩
      intro g hg
      rcases List.mem_cons.mp hg with h1 | h2
      · rw [h1]; exact hm
      · exact hrest g h2
    · rintro ⟨hb, hall⟩
      exact ⟨⟨hb, hall f (List.mem_cons_self _ _)⟩,
        fun g hg => hall g (List.mem_cons_of_mem _ hg)⟩

/-- C6: filter application is conjunctive and shrinking — applying `[a, b]`
yields a sublist of applying `[a]` alone and of applying `[b]` alone, and a
document is retained iff, for every filter term, its blob contains at least
one member of that term's synonym expansion, case-insensitively
(`check_text_matches_any` and `get_expanded_keywords` modelled from spec
§4.1/§4.5, being absent from src/utils.py). -/
theorem apply_filters_smart_conjunctive (R : List SDoc) (a b : Str)
    (fs : List Str) :
    (apply_filters_smart R [a, b]).Sublist (apply_filters_smart R [a]) ∧
    (apply_filters_smart R [a, b]).Sublist (apply_filters_smart R [b]) ∧
    (∀ d, d ∈ apply_filters_smart R fs ↔
      d ∈ R ∧ ∀ f ∈ fs,
        check_text_matches_any (blobS d) (get_expanded_keywords f) = true) := by
  refine ⟨?_, ?_, fun d => mem_apply_filters_smart fs R d⟩
  · exact List.filter_sublist _
  · exact List.Sublist.filter _ (List.filter_sublist _)

/-- C7: whenever the current result set has at most 5 documents,
`check_next_step` finalizes — it emits the top-5 result card and moves the
state machine to IDLE — regardless of which series or type keywords the
applied filters cover (the environment's keyword lists are arbitrary). -/
theorem check_next_step_small_finalizes (env : Env) (st : AppState)
    (cur : List SDoc) (hres : st.results = some cur) (hc : cur.length ≤ 5) :
    check_next_step env st =
      OpResult.ok
        { st with step := Step.IDLE, finalCards := st.finalCards ++ [cardOf cur] } := by
  simp only [check_next_step, hres]
  rw [if_pos (by simp [hc])]
  simp only [finalize_results, hres]

/-- C7 witness: a state holding an empty result set finalizes at once. -/
theorem check_next_step_small_finalizes_witness :
    c7st.results = some [] ∧ ([] : List SDoc).length ≤ 5 ∧
    check_next_step c7env c7st =
      OpResult.ok
        { c7st with step := Step.IDLE, finalCards := c7st.finalCards ++ [cardOf []] } :=
  ⟨rfl, by decide, check_next_step_small_finalizes c7env c7st [] rfl (by decide)⟩

/-- One extraction step on a single-shape value appends its kept filter. -/
theorem pyFilterStep_single (acc : List Str) (v : Option JVal)
    (h : isSingleVal v = true) :
    pyFilterStep acc v = .ok (acc ++ keptFilter v) := by
  match v with
  | none => simp [pyFilterStep, keptFilter]
  | some .jnull => simp [pyFilterStep, keptFilter]
  | some (.jstr s) =>
    dsimp only [pyFilterStep, keptFilter]
    split
    · next hcnd => simp [hcnd]
    · next hcnd => simp [hcnd]
  | some (.jlist l) => exact absurd h (by simp [isSingleVal])

/-- C4, counterexample to the claim as stated: on the documented list
shape (`{brand: list<string>, ...}`) with a non-empty brand list,
`start_search`'s filter extraction evaluates `val.lower()` on a list and
raises `AttributeError`, which propagates to the caller. -/
theorem extract_filters_list_shape_cex :
    listShape c4listIntent = true ∧
    extract_filters c4listIntent = .error () ∧
    start_search c4env (str "x") initState = OpResult.err initState := by
  refine ⟨by decide, by decide, ?_⟩
  with_unfolding_all decide

/-- C4 (amended): `start_search`'s filter extraction accepts the simpler
single-value shape — every brand/series/part value that is absent, null,
or a string completes normally, appending each non-empty string whose
lower-casing is not "null" — while a non-empty list value raises (only
empty lists of the documented list shape are tolerated, being falsy). -/
theorem extract_filters_single_shape (it : Intent4)
    (h : singleShape it = true) :
    extract_filters it = .ok (specFilters it) := by
  unfold singleShape at h
  simp only [Bool.and_eq_true] at h
  obtain ⟨⟨⟨hb, hs⟩, _⟩, hp⟩ := h
  have h1 := pyFilterStep_single [] it.brand hb
  have h2 := pyFilterStep_single ([] ++ keptFilter it.brand) it.series hs
  have h3 := pyFilterStep_single ([] ++ keptFilter it.brand ++ keptFilter it.series)
    it.part hp
  unfold extract_filters
  rw [h1]
  dsimp only
  rw [h2]
  dsimp only
  rw [h3]
  unfold specFilters
  simp

/-- C4 witness: the amended acceptance at a concrete single-shape dict
(brand "东风", null series, absent model, part "null" which is dropped). -/
theorem extract_filters_single_shape_witness :
    singleShape c4singleIntent = true ∧
    extract_filters c4singleIntent = .ok (specFilters c4singleIntent) ∧
    specFilters c4singleIntent = [str "东风"] :=
  ⟨by decide, extract_filters_single_shape c4singleIntent (by decide), by decide⟩

/-- `finalize_results` preserves the options/step relation. -/
theorem stepOK_finalize {st : AppState} (h : stepOK st) :
    stepOK (outState (finalize_results st)) := by
  cases hres : st.results with
  | none =>
    simp only [finalize_results, hres, outState]
    exact h
  | some fin =>
    simp only [finalize_results, hres, outState]
    intro _
    right
    right
    rfl

/-- `check_next_step` preserves the options/step relation. -/
theorem stepOK_cns (env : Env) {st : AppState} (h : stepOK st) :
    stepOK (outState (check_next_step env st)) := by
  cases hres : st.results with
  | none =>
    simp only [check_next_step, hres, outState]
    exact h
  | some cur =>
    simp only [check_next_step, hres]
    split
    · exact stepOK_finalize h
    · split
      · simp only [outState]
        intro _
        left
        rfl
      · split
        · simp only [outState]
          intro _
          right
          left
          rfl
        · exact stepOK_finalize h

/-- `start_search` preserves the options/step relation. -/
theorem stepOK_start (env : Env) (q : Str) {st : AppState} (h : stepOK st) :
    stepOK (outState (start_search env q st)) := by
  simp only [start_search]
  cases hex : (if env.use_llm then extract_filters (env.oracle q)
      else Except.ok []) with
  | error e =>
    simp only [outState]
    exact h
  | ok filters =>
    dsimp only
    apply stepOK_cns
    intro ho
    exact h ho

/-- `on_option_click` preserves the options/step relation. -/
theorem stepOK_click (env : Env) (opt : Str) {st : AppState}
    (h : stepOK st) : stepOK (outState (on_option_click env opt st)) := by
  simp only [on_option_click]
  cases hres : st.results with
  | none =>
    simp only [outState]
    intro ho
    exact h ho
  | some cur =>
    dsimp only
    apply stepOK_cns
    intro ho
    exact h ho

/-- C3 (amended): in every reachable session state, a non-empty options
list entails step SERIES_SELECT, TYPE_SELECT **or IDLE** — the claimed
invariant fails for IDLE because `finalize_results` sets step to IDLE
without clearing `options`, so a finalization reached from a selection
step leaves the stale options in place. -/
theorem reach_options_step_invariant (env : Env) (st : AppState)
    (h : Reach env st) (ho : st.options ≠ []) :
    st.step = Step.SERIES_SELECT ∨ st.step = Step.TYPE_SELECT ∨
      st.step = Step.IDLE := by
  have hOK : stepOK st := by
    clear ho
    induction h with
    | init => intro hinit; exact absurd rfl hinit
    | search q hst ih => exact stepOK_start env q ih
    | next hst ih => exact stepOK_cns env ih
    | click opt hst ih => exact stepOK_click env opt ih
    | final hst ih => exact stepOK_finalize ih
  exact hOK ho

/-- C3, counterexample to the claim as stated: in the seven-document
KL/KC environment, searching "中" reaches SERIES_SELECT with options
`["KL", "KC"]`; clicking "KL" narrows the results to two documents, the
stop condition fires, and `finalize_results` sets step to IDLE — with the
options list still non-empty, violating the claimed invariant. -/
theorem state_options_invariant_cex :
    Reach c3env c3stBad ∧ c3stBad.options ≠ [] ∧
    ¬(c3stBad.step = Step.SERIES_SELECT ∨ c3stBad.step = Step.TYPE_SELECT) := by
  refine ⟨Reach.click (str "KL") (Reach.search (str "中") Reach.init), ?_, ?_⟩
  · with_unfolding_all decide
  · with_unfolding_all decide

/-- C3 witness: the amended invariant at the reachable SERIES_SELECT
state with options `["KL", "KC"]`. -/
theorem reach_options_step_invariant_witness :
    Reach c3env c3stSel ∧ c3stSel.options ≠ [] ∧
    (c3stSel.step = Step.SERIES_SELECT ∨ c3stSel.step = Step.TYPE_SELECT ∨
      c3stSel.step = Step.IDLE) := by
  refine ⟨Reach.search (str "中") Reach.init, by with_unfolding_all decide, ?_⟩
  exact reach_options_step_invariant c3env c3stSel
    (Reach.search (str "中") Reach.init) (by with_unfolding_all decide)
